import Mathlib

/- Verification of the pypidata repository: shallow embeddings of
network.py (get_url, LazyZipOverHTTP) and worker.py (ProducerConsumer),
with theorems checking the specification claims against them. -/


/- DEFINITIONS: LazyZipOverHTTP read window and coverage tracker
   (network.py). -/

namespace LazyZip

/-- Closed byte intervals, as (left, right) pairs with both ends inclusive. -/
abbrev Ival := Nat × Nat

/-- Embedding of the window arithmetic of LazyZipOverHTTP.read (network.py,
lines 151-165): download_size = max(size, chunk_size); stop = length if
size < 0 else min(start + download_size, length); start = max(0, stop -
download_size).  The interval passed to _download is [start, stop - 1]
inclusive; it is returned here as the half open pair (start, stop).
Python integers are modelled as Int. -/
def readWindow (size pos length chunkSize : Int) : Int × Int :=
  let downloadSize := max size chunkSize
  let stop := if size < 0 then length else min (pos + downloadSize) length
  let start := max 0 (stop - downloadSize)
  (start, stop)

/-- Embedding of Python bisect.bisect_left(a, x) for the sorted lists kept by
LazyZipOverHTTP: on a list sorted in ascending order the binary search of
bisect_left returns the number of elements smaller than x, which is the
length of the largest prefix of elements smaller than x. -/
def bisect_left (a : List Nat) (x : Nat) : Nat :=
  (a.takeWhile (fun r => r < x)).length

/-- Embedding of Python bisect.bisect_right(a, x): on a list sorted in
ascending order it returns the number of elements less than or equal to x. -/
def bisect_right (a : List Nat) (x : Nat) : Nat :=
  (a.takeWhile (fun l => l ≤ x)).length

/-- The gap generation loop of LazyZipOverHTTP._merge (network.py, lines
251-256): walking the overlapped slice in order with cursor i, it yields
(i, j - 1) before each slice entry (j, k) that begins after the cursor,
moves the cursor to k + 1, and finally yields (i, stop) if the cursor is
still at most stop. -/
def mergeGaps (i stop : Nat) : List Ival → List Ival
  | [] => if i ≤ stop then [(i, stop)] else []
  | (j, k) :: rest => (if i < j then [(i, j - 1)] else []) ++ mergeGaps (k + 1) stop rest

/-- The lower end of the merged entry in LazyZipOverHTTP._merge, line 249:
min([start] + lslice[:1]). -/
def mergeStart (start : Nat) (slice : List Ival) : Nat :=
  match slice.head? with
  | some e => min start e.1
  | none => start

/-- The upper end of the merged entry in LazyZipOverHTTP._merge, line 250:
max([end] + rslice[-1:]). -/
def mergeStop (stop : Nat) (slice : List Ival) : Nat :=
  match slice.getLast? with
  | some e => max stop e.2
  | none => stop

/-- Embedding of LazyZipOverHTTP._merge (network.py, lines 239-257).  The
parallel lists self._left and self._right are modelled as one list of
(left, right) pairs.  Given the requested interval [start, stop] and the
index range [left, right) of the overlapping slice, it returns the gaps
yielded by the generator together with the updated coverage list, in which
the slice is replaced by the single merged entry. -/
def merge (start stop left right : Nat) (cov : List Ival) : List Ival × List Ival :=
  let slice := (cov.drop left).take (right - left)
  (mergeGaps (mergeStart start slice) (mergeStop stop slice) slice,
   cov.take left ++ (mergeStart start slice, mergeStop stop slice) :: cov.drop right)

/-- Coverage bookkeeping of LazyZipOverHTTP._download (network.py, lines
259-269): left = bisect_left(self._right, start), right =
bisect_right(self._left, end), then _merge is run to completion.  Returns
(gaps to fetch, updated coverage list). -/
def download (start stop : Nat) (cov : List Ival) : List Ival × List Ival :=
  let left := bisect_left (cov.map Prod.snd) start
  let right := bisect_right (cov.map Prod.fst) stop
  merge start stop left right cov

/-- Well-formedness of a coverage list: every entry is a nonempty closed
interval and the entries are in ascending order without overlap (each entry
ends strictly before the next begins).  This is the invariant the code
actually maintains; the empty initial state self._left = self._right = []
satisfies it. -/
def WF (cov : List Ival) : Prop :=
  (∀ p ∈ cov, p.1 ≤ p.2) ∧ List.Pairwise (fun a b : Ival => a.2 < b.1) cov

/-- The stronger invariant claimed by the specification: no two entries
overlap or touch, that is entry i ends at least two bytes before entry
i + 1 begins. -/
def SpecSeparated (cov : List Ival) : Prop :=
  List.Pairwise (fun a b : Ival => a.2 + 1 < b.1) cov

/-- A byte offset x is covered by one of the intervals of a list. -/
def covers (x : Nat) (s : List Ival) : Prop :=
  ∃ p ∈ s, p.1 ≤ x ∧ x ≤ p.2

end LazyZip


/- DEFINITIONS: the ZIP directory probe LazyZipOverHTTP._check_zip
   (network.py, lines 224-237). -/

namespace Probe

/-- How a run of _check_zip can end.  The Python source contains no raise
statement in _check_zip (BadZipfile is caught and ignored), so the loop can
only break at a successful parse or fall off its end and return normally;
the error constructor exists to state the claim that an error is raised. -/
inductive Outcome where
  | parsed (start : Nat)
  | exhausted
  | error (msg : String)
deriving DecidableEq

/-- Python range(0, stop, step) for step > 0: the multiples of step that are
smaller than stop, in ascending order. -/
def pyRange (stop step : Nat) : List Nat :=
  (List.range ((stop + step - 1) / step)).map (fun i => i * step)

/-- Candidate start offsets probed by _check_zip, line 227:
reversed(range(0, end, chunk_size)) with end = length - 1. -/
def candidates (length chunk : Nat) : List Nat :=
  (pyRange (length - 1) chunk).reverse

/-- The probe loop of _check_zip: for each candidate start it first calls
_download(start, end) and then attempts ZipFile(self); success breaks out of
the loop, failure moves to the next candidate, and an exhausted candidate
list falls off the loop and returns normally.  Whether the parse succeeds
after the bytes from a given candidate start through end of file are
available is abstracted by the oracle ok.  The returned list records the
(start, end) arguments of the _download calls that were made, in order. -/
def loop (ok : Nat → Bool) (e : Nat) : List Nat → Outcome × List (Nat × Nat)
  | [] => (.exhausted, [])
  | s :: rest =>
    if ok s then (.parsed s, [(s, e)])
    else
      let r := loop ok e rest
      (r.1, (s, e) :: r.2)

/-- Embedding of LazyZipOverHTTP._check_zip (network.py, lines 224-237). -/
def checkZip (ok : Nat → Bool) (length chunk : Nat) : Outcome × List (Nat × Nat) :=
  loop ok (length - 1) (candidates length chunk)

end Probe


/- DEFINITIONS: the resilient fetch layer get_url (network.py, lines
   21-78). -/

namespace Net

/-- What the transport does on one attempt: deliver a response with a status
code, raise httpx.TimeoutException, or raise another httpx.RequestError
(DNS failure, refused connection, malformed response). -/
inductive AttemptResult where
  | response (status : Nat)
  | timeout
  | requestError

/-- Caller visible outcome of get_url together with the observable trace:
result is the returned value (some status for a returned response, none for
the Python return None), attempts counts the requests issued, sleeps counts
the time.sleep(1) backoff delays performed. -/
structure FetchResult where
  result : Option Nat
  attempts : Nat
  sleeps : Nat
deriving DecidableEq

/-- Classification of a delivered response by the body of get_url (lines
56-63 and the HTTPStatusError handler, lines 75-77): status 404 returns
None; response.raise_for_status() raises HTTPStatusError for any status
outside 200-299, which the handler turns into None; any remaining status
other than 200 returns None; status 200 breaks the loop and the response is
returned. -/
def classify (s : Nat) : Option Nat :=
  if s = 404 then none
  else if s < 200 ∨ 300 ≤ s then none
  else if s ≠ 200 then none
  else some s

/-- The retry loop of get_url (lines 52-78).  The Python loop keeps a counter
tries, increments it on each TimeoutException and returns None once
tries >= max_tries; here the loop carries remaining = max_tries - tries, so
the exit test after the increment is remaining <= 1 before it.  attempts and
sleeps accumulate the observable trace; the transport is indexed by the
attempt number.  A non-timeout RequestError returns None at once with no
retry. -/
def getUrlLoop (transport : Nat → AttemptResult) : Nat → Nat → Nat → FetchResult
  | remaining, attempts, sleeps =>
    match transport attempts with
    | .response s => { result := classify s, attempts := attempts + 1, sleeps := sleeps }
    | .requestError => { result := none, attempts := attempts + 1, sleeps := sleeps }
    | .timeout =>
      match remaining with
      | 0 => { result := none, attempts := attempts + 1, sleeps := sleeps }
      | 1 => { result := none, attempts := attempts + 1, sleeps := sleeps }
      | r + 2 => getUrlLoop transport (r + 1) (attempts + 1) (sleeps + 1)

/-- Embedding of get_url(url, client, method, stream, max_tries): the loop is
entered with tries = 0, so remaining = max_tries. -/
def get_url (transport : Nat → AttemptResult) (maxTries : Nat) : FetchResult :=
  getUrlLoop transport maxTries 0 0

/-- Shape of one HTTP request as issued by the transport call
fetcher(method, url) inside get_url. -/
structure HttpRequest where
  method : String
  url : String
  headers : List (String × String)
  stream : Bool
deriving DecidableEq

/-- The request issued by get_url on each attempt (network.py, line 55):
fetcher(method, url), where fetcher is client.stream when stream is true and
client.request otherwise.  No header argument of any kind is passed: get_url
has no headers parameter. -/
def getUrlRequest (url : String) (method : String) (stream : Bool) : HttpRequest :=
  { method := method, url := url, headers := [], stream := stream }

/-- The Range header value built by LazyZipOverHTTP.get_body, line 120. -/
def rangeHeader (start stop : Nat) : String :=
  "bytes=" ++ toString start ++ "-" ++ toString stop

/-- The headers dictionary built by LazyZipOverHTTP.get_body, lines 119-121.
These headers never reach get_url: its signature has no headers parameter. -/
def getBodyHeaders (start stop : Nat) : List (String × String) :=
  [("Range", rangeHeader start stop), ("Cache-Control", "no-cache")]

/-- The get_url invocation written in LazyZipOverHTTP.get_body, line 122:
get_url("GET", url, client=self.client, stream=True, headers=headers).
Under the positional binding of get_url(url, client, method, stream,
max_tries) the literal "GET" is bound to the url parameter, the resource url
occupies the client position, method keeps its default value get, and the
headers keyword is not part of the signature of get_url (at run time the
call raises TypeError, which the logger.catch decorator swallows into a None
return).  The request that the written argument binding describes is
therefore a request for the literal url "GET" with the default method and no
headers; start and stop never influence it. -/
def getBodyRequest (_url : String) (_start _stop : Nat) : HttpRequest :=
  getUrlRequest "GET" "get" true

/-- Modelled from the spec: the request that claim C4 says get_body issues -
a streaming GET to the resource URL with the Range and Cache-Control
headers.  Stated from the words of the specification for comparison with
getBodyRequest, the request the source actually describes. -/
def specRangeRequest (url : String) (start stop : Nat) : HttpRequest :=
  { method := "GET", url := url, headers := getBodyHeaders start stop, stream := true }

end Net


/- DEFINITIONS: the producer and consumer pipeline (worker.py). -/

namespace Worker

/-- Embedding of ProducerConsumer.producer_task (worker.py, lines 32-38).
The queue holds values of type Option alpha: some x is a payload item and
none is the end of stream marker that Python represents by the value None.
The producer generates a finite list of Option alpha values; producer_task
puts each generated value that is not None on the queue, in generation
order, counting the values it put, and returns (queue items, count). -/
def producerTask {α : Type} : List (Option α) → List (Option α) × Nat
  | [] => ([], 0)
  | none :: rest => producerTask rest
  | some d :: rest =>
      let r := producerTask rest
      (some d :: r.1, r.2 + 1)

/-- Outcome of the consumer loop of ProducerConsumer.consumer_task on a finite
arrival schedule: either the loop hit the end of stream marker and returned
(terminated), or it is parked forever in a blocking queue.get with no further
arrivals (blocked).  Either way the list records the successive batches that
were passed to the consumer callback. -/
inductive ConsumerOutcome (α : Type) where
  | terminated (batches : List (List (Option α)))
  | blocked (batches : List (List (Option α)))
deriving DecidableEq

/-- Batches passed to the consumer callback, regardless of how the loop ended. -/
def batchesOf {α : Type} : ConsumerOutcome α → List (List (Option α))
  | .terminated bs => bs
  | .blocked bs => bs

/-- Embedding of ProducerConsumer.consumer_task (worker.py, lines 18-30).
The arrival schedule is a list of rounds: each round is the list of queue
items available when the loop reaches its blocking queue.get, so the head of
a round is returned by queue.get and the rest of the round is returned by
the successive queue.get_nowait calls of the drain loop (which appends every
value it obtains, without testing it against None), after which get_nowait
raises Empty and the batch is passed to the consumer callback.  A head equal
to none makes the loop break before consuming anything further; an empty
round contributes nothing (the blocking get simply spans it); an exhausted
schedule leaves the loop blocked in queue.get forever.  The accumulator
collects the batches already consumed, most recent first. -/
def consumerRun {α : Type} : List (List (Option α)) → List (List (Option α)) → ConsumerOutcome α
  | [], acc => .blocked acc.reverse
  | [] :: rest, acc => consumerRun rest acc
  | (none :: _) :: _, acc => .terminated acc.reverse
  | (some a :: xs) :: rest, acc => consumerRun rest ((some a :: xs) :: acc)

/-- Queue content enqueued by the success path of ProducerConsumer.start
(worker.py, lines 40-54): each producer contributes the items its
producer_task put on the queue; the driver itself enqueues nothing in this
path (queue.put(None) appears only in the BaseException handler). -/
def successPathQueue {α : Type} (ps : List (List (Option α))) : List (Option α) :=
  (ps.map fun items => (producerTask items).1).flatten

end Worker


/- THEOREMS: pipeline helper lemmas. -/

namespace Worker

theorem producerTask_eq {α : Type} (items : List (Option α)) :
    producerTask items = ((items.filterMap id).map some, (items.filterMap id).length) := by
  induction items with
  | nil => rfl
  | cons x rest ih =>
    cases x with
    | none => simpa [producerTask] using ih
    | some a => simp [producerTask, ih]

theorem producerTask_no_none {α : Type} (items : List (Option α)) :
    Option.none ∉ (producerTask items).1 := by
  rw [producerTask_eq]
  simp

theorem successPathQueue_no_none {α : Type} (ps : List (List (Option α))) :
    Option.none ∉ successPathQueue ps := by
  intro h
  rcases List.mem_flatten.mp h with ⟨l, hl, hn⟩
  rcases List.mem_map.mp hl with ⟨items, _, rfl⟩
  exact producerTask_no_none items hn

/-- If no round of the schedule contains the end of stream marker, the
consumer loop never terminates: it ends up blocked in queue.get. -/
theorem consumerRun_blocked {α : Type} :
    ∀ (rounds acc : List (List (Option α))),
      (∀ r ∈ rounds, Option.none ∉ r) →
      ∃ bs, consumerRun rounds acc = ConsumerOutcome.blocked bs
  | [], acc, _ => ⟨acc.reverse, rfl⟩
  | [] :: rest, acc, h =>
      consumerRun_blocked rest acc fun r hr => h r (List.mem_cons_of_mem _ hr)
  | (none :: xs) :: _, _, h =>
      absurd (List.mem_cons_self _ _) (h (none :: xs) (List.mem_cons_self _ _))
  | (some a :: xs) :: rest, acc, h =>
      consumerRun_blocked rest ((some a :: xs) :: acc)
        fun r hr => h r (List.mem_cons_of_mem _ hr)

/-- Batches already in the accumulator appear among the batches of the final
outcome, whichever way the loop ends. -/
theorem mem_batches_of_mem_acc {α : Type} :
    ∀ (rounds acc : List (List (Option α))) (b : List (Option α)),
      b ∈ acc → b ∈ batchesOf (consumerRun rounds acc)
  | [], acc, b, hb => by simpa [consumerRun, batchesOf] using hb
  | [] :: rest, acc, b, hb => mem_batches_of_mem_acc rest acc b hb
  | (none :: _) :: _, acc, b, hb => by simpa [consumerRun, batchesOf] using hb
  | (some a :: xs) :: rest, acc, b, hb =>
      mem_batches_of_mem_acc rest ((some a :: xs) :: acc) b
        (List.mem_cons_of_mem _ hb)

end Worker

/- THEOREMS: the read window (claim C1). -/

namespace LazyZip

/-- C1 counterexample: at position 0 with size -1 (read to end) on a 20000
byte file with the default chunk size 8192, the window computed by read is
[11808, 20000); byte 0 lies in the requested span [0, 20000) but not in the
window, so the window does not contain the requested span and read serves
bytes that were never fetched. -/
theorem C1_window_counterexample :
    readWindow (-1) 0 20000 8192 = (11808, 20000) ∧
    ¬ ((readWindow (-1) 0 20000 8192).1 ≤ 0 ∧ (0 : Int) < (readWindow (-1) 0 20000 8192).2) := by
  constructor
  · decide
  · decide

/-- C1 amended: for a read at position pos >= 0 with a positive chunk size,
the window is always restricted to [0, totalLength); when size >= 0 it
contains the whole requested span [pos, min(pos + size, totalLength)); but
when size < 0 (read to end) the window is exactly the final chunk
[max(0, totalLength - chunkSize), totalLength), which contains the requested
span [pos, totalLength) only when pos is at most chunkSize bytes before the
end of the file. -/
theorem C1_window_amended (size pos length chunkSize : Int)
    (hpos : 0 ≤ pos) (hchunk : 0 < chunkSize) :
    (0 ≤ (readWindow size pos length chunkSize).1 ∧
      (readWindow size pos length chunkSize).2 ≤ length) ∧
    (0 ≤ size →
      (readWindow size pos length chunkSize).1 ≤ pos ∧
      min (pos + size) length ≤ (readWindow size pos length chunkSize).2) ∧
    (size < 0 →
      (readWindow size pos length chunkSize).1 = max 0 (length - chunkSize) ∧
      (readWindow size pos length chunkSize).2 = length) := by
  refine ⟨⟨le_max_left 0 _, ?_⟩, ?_, ?_⟩
  · by_cases h : size < 0
    · simp [readWindow, h]
    · simp only [readWindow, if_neg h]
      exact min_le_right _ _
  · intro hs
    have hns : ¬ size < 0 := not_lt.mpr hs
    constructor
    · simp only [readWindow, if_neg hns]
      refine max_le hpos ?_
      have h1 : min (pos + max size chunkSize) length ≤ pos + max size chunkSize :=
        min_le_left _ _
      omega
    · simp only [readWindow, if_neg hns]
      exact min_le_min (by have := le_max_left size chunkSize; omega) (le_refl length)
  · intro h
    have hmax : max size chunkSize = chunkSize := max_eq_right (by omega)
    constructor
    · simp only [readWindow, if_pos h, hmax]
    · simp only [readWindow, if_pos h]

/-- Witness for the amended C1 theorem at size 10, pos 3, length 100,
chunk size 8192. -/
theorem C1_window_amended_witness :
    (0 ≤ (readWindow 10 3 100 8192).1 ∧ (readWindow 10 3 100 8192).2 ≤ 100) ∧
    ((0 : Int) ≤ 10 →
      (readWindow 10 3 100 8192).1 ≤ 3 ∧
      min (3 + 10) 100 ≤ (readWindow 10 3 100 8192).2) ∧
    ((10 : Int) < 0 →
      (readWindow 10 3 100 8192).1 = max 0 (100 - 8192) ∧
      (readWindow 10 3 100 8192).2 = 100) :=
  C1_window_amended 10 3 100 8192 (by decide) (by decide)

end LazyZip


/- THEOREMS: pipeline claims C8, C9, C10. -/

namespace Worker

/-- C10: producer_task enqueues exactly the non None items generated by the
producer for its input, in generation order, returns the count of enqueued
items, and consequently never enqueues the end of stream marker None. -/
theorem C10_producer_filters {α : Type} (items : List (Option α)) :
    (producerTask items).1 = (items.filterMap id).map some ∧
    (producerTask items).2 = (items.filterMap id).length ∧
    Option.none ∉ (producerTask items).1 := by
  refine ⟨?_, ?_, producerTask_no_none items⟩ <;> rw [producerTask_eq]

/-- C8: in a run where every producer completes without error (the success
path of start), the queue receives only producer items and never the end of
stream marker, so on every arrival schedule of those items the consumer loop
ends up blocked forever in queue.get instead of terminating, and start,
which waits for the consumer future inside the executor shutdown, never
returns.  This contradicts the claim that such a run reaches Completed. -/
theorem C8_success_path_deadlock (ps rounds : List (List (Option Nat)))
    (h : rounds.flatten = successPathQueue ps) :
    Option.none ∉ successPathQueue ps ∧
    ∃ bs, consumerRun rounds [] = ConsumerOutcome.blocked bs := by
  refine ⟨successPathQueue_no_none ps, consumerRun_blocked rounds [] ?_⟩
  intro r hr hn
  exact successPathQueue_no_none ps (h ▸ List.mem_flatten.mpr ⟨r, hr, hn⟩)

/-- Witness for the C8 theorem: one producer that generates some 5 and a
None (dropped), one round in which that item is available. -/
theorem C8_success_path_deadlock_witness :
    Option.none ∉ successPathQueue [[some 5, none]] ∧
    ∃ bs, consumerRun [[Option.some 5]] ([] : List (List (Option Nat))) =
      ConsumerOutcome.blocked bs :=
  C8_success_path_deadlock [[some 5, none]] [[Option.some 5]] rfl

/-- C9 counterexample: with arrival schedule [[some 0, none]] the marker is
taken by the non blocking drain; the batch [some 0, none] containing the
marker is passed to consume, and the loop does not terminate at the marker,
ending blocked instead. -/
theorem C9_drain_marker_counterexample :
    consumerRun [[Option.some 0, Option.none]] ([] : List (List (Option Nat))) =
      ConsumerOutcome.blocked [[Option.some 0, Option.none]] ∧
    (∃ b ∈ batchesOf (consumerRun [[Option.some 0, Option.none]]
      ([] : List (List (Option Nat)))), Option.none ∈ b) ∧
    ∀ bs, consumerRun [[Option.some 0, Option.none]] ([] : List (List (Option Nat))) ≠
      ConsumerOutcome.terminated bs := by
  refine ⟨rfl, ⟨[Option.some 0, Option.none], by decide, by decide⟩, ?_⟩
  intro bs h
  rw [show consumerRun [[Option.some 0, Option.none]] ([] : List (List (Option Nat))) =
    ConsumerOutcome.blocked [[Option.some 0, Option.none]] from rfl] at h
  exact ConsumerOutcome.noConfusion h

/-- C9 amended: a marker taken by the blocking queue.get terminates the
consumer immediately and is not placed in any batch; but a marker that is
encountered during the non blocking batch drain is appended to the batch,
the batch containing it is passed to consume, and the loop does not
terminate at that marker. -/
theorem C9_marker_amended {α : Type} (a : α) (xs : List (Option α))
    (rest : List (List (Option α))) (h : Option.none ∈ xs) :
    (∀ tail rest2, consumerRun ((Option.none :: tail) :: rest2)
        ([] : List (List (Option α))) = ConsumerOutcome.terminated []) ∧
    Option.none ∈ (Option.some a :: xs) ∧
    (Option.some a :: xs) ∈ batchesOf (consumerRun ((Option.some a :: xs) :: rest) []) := by
  refine ⟨fun tail rest2 => rfl, List.mem_cons_of_mem _ h, ?_⟩
  exact mem_batches_of_mem_acc rest [Option.some a :: xs] _ (List.mem_cons_self _ _)

/-- Witness for the amended C9 theorem with one payload item followed by the
marker inside the drained tail. -/
theorem C9_marker_amended_witness :
    (∀ tail rest2, consumerRun ((Option.none :: tail) :: rest2)
        ([] : List (List (Option Nat))) = ConsumerOutcome.terminated []) ∧
    Option.none ∈ (Option.some 0 :: [Option.none]) ∧
    (Option.some 0 :: [Option.none]) ∈
      batchesOf (consumerRun ((Option.some 0 :: [Option.none]) :: []) []) :=
  C9_marker_amended 0 [Option.none] [] (by decide)

end Worker


/- THEOREMS: resilient fetch claims C6 and C7. -/

namespace Net

/-- C6 counterexample: responses with status 404, 500 and 201 all produce the
identical caller visible outcome (the Python return value None after a
single attempt), so the three results are not distinguishable by the
caller. -/
theorem C6_status_counterexample :
    get_url (fun _ => AttemptResult.response 404) 10 =
      get_url (fun _ => AttemptResult.response 500) 10 ∧
    get_url (fun _ => AttemptResult.response 500) 10 =
      get_url (fun _ => AttemptResult.response 201) 10 ∧
    get_url (fun _ => AttemptResult.response 404) 10 =
      { result := none, attempts := 1, sleeps := 0 } :=
  ⟨rfl, rfl, rfl⟩

/-- C6 amended: each of the statuses 404, 500 and 201 makes get_url return
the failure value None after exactly one attempt with no retry; the three
cases differ only in log output and are mutually indistinguishable to the
caller. -/
theorem C6_status_amended (maxTries : Nat) :
    get_url (fun _ => AttemptResult.response 404) maxTries =
      { result := none, attempts := 1, sleeps := 0 } ∧
    get_url (fun _ => AttemptResult.response 500) maxTries =
      { result := none, attempts := 1, sleeps := 0 } ∧
    get_url (fun _ => AttemptResult.response 201) maxTries =
      { result := none, attempts := 1, sleeps := 0 } := by
  cases maxTries <;> exact ⟨rfl, rfl, rfl⟩

theorem getUrlLoop_timeout (r : Nat) :
    ∀ (a s : Nat), getUrlLoop (fun _ => AttemptResult.timeout) (r + 1) a s =
      { result := none, attempts := a + (r + 1), sleeps := s + r } := by
  induction r with
  | zero => intro a s; rfl
  | succ n ih =>
    intro a s
    have step : getUrlLoop (fun _ => AttemptResult.timeout) (n + 2) a s =
        getUrlLoop (fun _ => AttemptResult.timeout) (n + 1) (a + 1) (s + 1) := rfl
    rw [step, ih]
    simp only [FetchResult.mk.injEq, true_and]
    omega

/-- C7: against a transport whose every attempt times out, get_url with
max_tries = m >= 1 performs exactly m attempts separated by exactly m - 1
fixed unit sleeps and then yields the exhaustion outcome (the returned
failure value None); in particular with max_tries = 1 it makes one attempt
and sleeps zero times; and a non timeout transport failure returns at once
after one attempt with no retry. -/
theorem C7_retry_exhaustion (maxTries : Nat) (h : 1 ≤ maxTries) :
    get_url (fun _ => AttemptResult.timeout) maxTries =
      { result := none, attempts := maxTries, sleeps := maxTries - 1 } ∧
    get_url (fun _ => AttemptResult.timeout) 1 =
      { result := none, attempts := 1, sleeps := 0 } ∧
    get_url (fun _ => AttemptResult.requestError) maxTries =
      { result := none, attempts := 1, sleeps := 0 } := by
  obtain ⟨r, rfl⟩ : ∃ r, maxTries = r + 1 := ⟨maxTries - 1, by omega⟩
  refine ⟨?_, rfl, rfl⟩
  have := getUrlLoop_timeout r 0 0
  rw [get_url, this]
  simp only [FetchResult.mk.injEq, true_and]
  omega

/-- Witness for the C7 theorem at max_tries 3. -/
theorem C7_retry_exhaustion_witness :
    get_url (fun _ => AttemptResult.timeout) 3 =
      { result := none, attempts := 3, sleeps := 3 - 1 } ∧
    get_url (fun _ => AttemptResult.timeout) 1 =
      { result := none, attempts := 1, sleeps := 0 } ∧
    get_url (fun _ => AttemptResult.requestError) 3 =
      { result := none, attempts := 1, sleeps := 0 } :=
  C7_retry_exhaustion 3 (by decide)

/-- C4: the get_url invocation written in get_body does not describe the
claimed range request.  The request described by the written argument
binding targets the literal url "GET" with the default method and carries no
headers at all (get_url never passes headers to the transport and has no
headers parameter), so it differs from the streaming GET to the resource URL
with Range and Cache-Control headers that the claim requires, and the Range
header never reaches the remote server. -/
theorem C4_get_body_call_mismatch :
    (getBodyRequest "https://example.com/pkg.zip" 0 8191).url = "GET" ∧
    (getBodyRequest "https://example.com/pkg.zip" 0 8191).headers = [] ∧
    getBodyRequest "https://example.com/pkg.zip" 0 8191 ≠
      specRangeRequest "https://example.com/pkg.zip" 0 8191 ∧
    (specRangeRequest "https://example.com/pkg.zip" 0 8191).headers =
      [("Range", "bytes=0-8191"), ("Cache-Control", "no-cache")] := by
  refine ⟨rfl, rfl, ?_, rfl⟩
  intro h
  have := congrArg HttpRequest.url h
  simp [getBodyRequest, getUrlRequest, specRangeRequest] at this

end Net

/- THEOREMS: ZIP directory probe claim C5. -/

namespace Probe

theorem loop_find (ok : Nat → Bool) (e : Nat) :
    ∀ cs : List Nat, (loop ok e cs).1 =
      (match cs.find? ok with
       | some s => Outcome.parsed s
       | none => Outcome.exhausted)
  | [] => rfl
  | s :: rest => by
    cases h : ok s
    · simp [loop, h, List.find?_cons, loop_find ok e rest]
    · simp [loop, h, List.find?_cons]

theorem loop_trace (ok : Nat → Bool) (e : Nat) :
    ∀ cs : List Nat, ∀ d ∈ (loop ok e cs).2, d.2 = e ∧ d.1 ∈ cs
  | [] => by simp [loop]
  | s :: rest => by
    intro d hd
    cases h : ok s
    · rw [show (loop ok e (s :: rest)).2 = (s, e) :: (loop ok e rest).2 by
        simp [loop, h]] at hd
      rcases List.mem_cons.mp hd with rfl | hd
      · exact ⟨rfl, List.mem_cons_self _ _⟩
      · rcases loop_trace ok e rest d hd with ⟨h1, h2⟩
        exact ⟨h1, List.mem_cons_of_mem _ h2⟩
    · rw [show (loop ok e (s :: rest)).2 = [(s, e)] by simp [loop, h]] at hd
      rcases List.mem_singleton.mp hd with rfl
      exact ⟨rfl, List.mem_cons_self _ _⟩

theorem mem_pyRange {step : Nat} (hstep : 0 < step) (stop k : Nat) :
    k ∈ pyRange stop step ↔ step ∣ k ∧ k < stop := by
  unfold pyRange
  constructor
  · intro hk
    rcases List.mem_map.mp hk with ⟨i, hi, rfl⟩
    have h1 : i + 1 ≤ (stop + step - 1) / step := List.mem_range.mp hi
    have h2 : (i + 1) * step ≤ stop + step - 1 := (Nat.le_div_iff_mul_le hstep).mp h1
    have h3 : (i + 1) * step = i * step + step := by ring
    exact ⟨⟨i, by ring⟩, by omega⟩
  · rintro ⟨⟨c, rfl⟩, hk⟩
    refine List.mem_map.mpr ⟨c, List.mem_range.mpr ?_, by ring⟩
    have h3 : (c + 1) * step = c * step + step := by ring
    have hcs : c * step = step * c := by ring
    have h2 : (c + 1) * step ≤ stop + step - 1 := by omega
    have := (Nat.le_div_iff_mul_le hstep).mpr h2
    omega

theorem candidates_sorted (length chunk : Nat) (hchunk : 0 < chunk) :
    List.Pairwise (fun a b => b < a) (candidates length chunk) := by
  rw [candidates, List.pairwise_reverse, pyRange]
  exact List.Pairwise.map _ (fun a b h => mul_lt_mul_of_pos_right h hchunk)
    (List.pairwise_lt_range _)

theorem head_greatest {l : List Nat} (hs : List.Pairwise (fun a b => b < a) l)
    {m : Nat} (hm : l.head? = some m) : ∀ c ∈ l, c ≤ m := by
  cases l with
  | nil => exact absurd hm (by simp)
  | cons x xs =>
    injection hm with hm
    subst hm
    intro c hc
    rcases List.mem_cons.mp hc with rfl | hc
    · exact le_refl _
    · exact le_of_lt ((List.pairwise_cons.mp hs).1 c hc)

/-- C5 amended: the probe visits candidate offsets in strictly decreasing
order; every candidate is chunk aligned and lies before end of file, and the
first candidate is the greatest such offset; every probing step downloads
from the candidate start through end of file; the probe stops at the first
candidate whose parse succeeds; and when every candidate fails, _check_zip
returns normally (exhausted) - no error of any kind is raised, contrary to
the claim that an InvalidContainer failure is produced. -/
theorem C5_probe_amended (ok : Nat → Bool) (length chunk : Nat) (hchunk : 0 < chunk) :
    List.Pairwise (fun a b => b < a) (candidates length chunk) ∧
    (∀ c ∈ candidates length chunk, chunk ∣ c ∧ c < length - 1) ∧
    (∀ m, (candidates length chunk).head? = some m →
      ∀ k, chunk ∣ k → k < length - 1 → k ≤ m) ∧
    (∀ d ∈ (checkZip ok length chunk).2, d.2 = length - 1 ∧ d.1 ∈ candidates length chunk) ∧
    ((checkZip ok length chunk).1 =
      match (candidates length chunk).find? ok with
      | some s => Outcome.parsed s
      | none => Outcome.exhausted) ∧
    (∀ msg, (checkZip ok length chunk).1 ≠ Outcome.error msg) := by
  have hmem : ∀ k, k ∈ candidates length chunk ↔ chunk ∣ k ∧ k < length - 1 := by
    intro k
    rw [candidates, List.mem_reverse]
    exact mem_pyRange hchunk _ k
  have hsorted := candidates_sorted length chunk hchunk
  have hfind : (checkZip ok length chunk).1 =
      (match (candidates length chunk).find? ok with
       | some s => Outcome.parsed s
       | none => Outcome.exhausted) :=
    loop_find ok (length - 1) (candidates length chunk)
  refine ⟨hsorted, fun c hc => (hmem c).mp hc, ?_, ?_, hfind, ?_⟩
  · intro m hm k hdvd hk
    exact head_greatest hsorted hm k ((hmem k).mpr ⟨hdvd, hk⟩)
  · exact loop_trace ok (length - 1) (candidates length chunk)
  · intro msg h
    rw [hfind] at h
    cases hcase : (candidates length chunk).find? ok
    · rw [hcase] at h
      exact Outcome.noConfusion h
    · rw [hcase] at h
      exact Outcome.noConfusion h

/-- Witness for the amended C5 theorem: a 20000 byte file with chunk size
8192, where the parse succeeds once the candidate 8192 is reached. -/
theorem C5_probe_amended_witness :
    List.Pairwise (fun a b => b < a) (candidates 20000 8192) ∧
    (∀ c ∈ candidates 20000 8192, 8192 ∣ c ∧ c < 20000 - 1) ∧
    (∀ m, (candidates 20000 8192).head? = some m →
      ∀ k, 8192 ∣ k → k < 20000 - 1 → k ≤ m) ∧
    (∀ d ∈ (checkZip (fun s => s ≤ 8192) 20000 8192).2,
      d.2 = 20000 - 1 ∧ d.1 ∈ candidates 20000 8192) ∧
    ((checkZip (fun s => s ≤ 8192) 20000 8192).1 =
      match (candidates 20000 8192).find? (fun s => s ≤ 8192) with
      | some s => Outcome.parsed s
      | none => Outcome.exhausted) ∧
    (∀ msg, (checkZip (fun s => s ≤ 8192) 20000 8192).1 ≠ Outcome.error msg) :=
  C5_probe_amended (fun s => s ≤ 8192) 20000 8192 (by decide)

/-- C5 counterexample: with a parse that never succeeds on a 20000 byte file
the probe exhausts all candidates and returns normally; no error outcome is
produced, refuting the claim that the probe fails with InvalidContainer
rather than returning normally. -/
theorem C5_probe_counterexample :
    (checkZip (fun _ => false) 20000 8192).1 = Outcome.exhausted ∧
    ¬ ∃ msg, (checkZip (fun _ => false) 20000 8192).1 = Outcome.error msg := by
  refine ⟨rfl, ?_⟩
  rintro ⟨msg, h⟩
  rw [show (checkZip (fun _ => false) 20000 8192).1 = Outcome.exhausted from rfl] at h
  exact Outcome.noConfusion h

end Probe

/- THEOREMS: coverage tracker claims C2 and C3. -/

namespace LazyZip

instance (cov : List Ival) : Decidable (WF cov) :=
  inferInstanceAs (Decidable (_ ∧ _))

instance (cov : List Ival) : Decidable (SpecSeparated cov) :=
  inferInstanceAs (Decidable (List.Pairwise _ cov))

instance (x : Nat) (s : List Ival) : Decidable (covers x s) :=
  inferInstanceAs (Decidable (∃ p ∈ s, p.1 ≤ x ∧ x ≤ p.2))

theorem take_length_takeWhile {α : Type} (q : α → Bool) :
    ∀ l : List α, l.take (l.takeWhile q).length = l.takeWhile q
  | [] => rfl
  | a :: t => by
    cases h : q a
    · simp [List.takeWhile_cons, h]
    · simp [List.takeWhile_cons, h, take_length_takeWhile q t]

theorem drop_length_takeWhile {α : Type} (q : α → Bool) :
    ∀ l : List α, l.drop (l.takeWhile q).length = l.dropWhile q
  | [] => rfl
  | a :: t => by
    cases h : q a
    · simp [List.takeWhile_cons, List.dropWhile_cons, h]
    · simp [List.takeWhile_cons, List.dropWhile_cons, h, drop_length_takeWhile q t]

theorem takeWhile_split {α : Type} (q1 q2 : α → Bool) :
    ∀ l : List α, (∀ a ∈ l, q1 a = true → q2 a = true) →
      l.takeWhile q2 = l.takeWhile q1 ++ (l.dropWhile q1).takeWhile q2
  | [], _ => rfl
  | a :: t, h => by
    cases h1 : q1 a
    · simp [List.takeWhile_cons, List.dropWhile_cons, h1]
    · have h2 : q2 a = true := h a (List.mem_cons_self _ _) h1
      simp [List.takeWhile_cons, List.dropWhile_cons, h1, h2,
        takeWhile_split q1 q2 t (fun b hb => h b (List.mem_cons_of_mem _ hb))]

theorem dropWhile_append_of_forall {α : Type} (q : α → Bool) :
    ∀ (l1 l2 : List α), (∀ a ∈ l1, q a = true) →
      (l1 ++ l2).dropWhile q = l2.dropWhile q
  | [], l2, _ => rfl
  | a :: t, l2, h => by
    have ha := h a (List.mem_cons_self _ _)
    simp only [List.cons_append, List.dropWhile_cons, ha, if_pos]
    exact dropWhile_append_of_forall q t l2 (fun b hb => h b (List.mem_cons_of_mem _ hb))

theorem snd_ge_of_mem_dropWhile {s : Nat} :
    ∀ {l : List Ival}, List.Pairwise (fun a b : Ival => a.2 < b.2) l →
      ∀ p ∈ l.dropWhile (fun p => p.2 < s), s ≤ p.2
  | [], _, p, hp => absurd hp (List.not_mem_nil p)
  | a :: t, hpw, p, hp => by
    obtain ⟨ha, ht⟩ := List.pairwise_cons.mp hpw
    by_cases h : a.2 < s
    · rw [List.dropWhile_cons, if_pos (by exact decide_eq_true h)] at hp
      exact snd_ge_of_mem_dropWhile ht p hp
    · rw [List.dropWhile_cons, if_neg (by simpa using h)] at hp
      rcases List.mem_cons.mp hp with rfl | hp
      · omega
      · have := ha p hp
        omega

theorem fst_gt_of_mem_dropWhile {t : Nat} :
    ∀ {l : List Ival}, List.Pairwise (fun a b : Ival => a.1 < b.1) l →
      ∀ p ∈ l.dropWhile (fun p => p.1 ≤ t), t < p.1
  | [], _, p, hp => absurd hp (List.not_mem_nil p)
  | a :: l, hpw, p, hp => by
    obtain ⟨ha, hl⟩ := List.pairwise_cons.mp hpw
    by_cases h : a.1 ≤ t
    · rw [List.dropWhile_cons, if_pos (by exact decide_eq_true h)] at hp
      exact fst_gt_of_mem_dropWhile hl p hp
    · rw [List.dropWhile_cons, if_neg (by simpa using h)] at hp
      rcases List.mem_cons.mp hp with rfl | hp
      · omega
      · have := ha p hp
        omega

theorem WF.pairwise_snd {cov : List Ival} (h : WF cov) :
    List.Pairwise (fun a b : Ival => a.2 < b.2) cov :=
  List.Pairwise.imp_of_mem (fun _ hb hr => lt_of_lt_of_le hr (h.1 _ hb)) h.2

theorem WF.pairwise_fst {cov : List Ival} (h : WF cov) :
    List.Pairwise (fun a b : Ival => a.1 < b.1) cov :=
  List.Pairwise.imp_of_mem (fun ha _ hr => lt_of_le_of_lt (h.1 _ ha) hr) h.2

/-- Decomposition of the coverage list at a request [s, t]: the bisect calls
of _download split the list into the prefix A of entries ending before s,
the slice S of entries meeting the request, and the suffix B of entries
starting after t, and _merge turns the coverage into A, the merged entry,
then B, returning the gaps computed from the slice. -/
theorem download_decomp (s t : Nat) (cov : List Ival) (hwf : WF cov) (hst : s ≤ t) :
    ∃ A S B : List Ival,
      cov = A ++ (S ++ B) ∧
      download s t cov =
        (mergeGaps (mergeStart s S) (mergeStop t S) S,
         A ++ (mergeStart s S, mergeStop t S) :: B) ∧
      (∀ p ∈ A, p.2 < s) ∧
      (∀ p ∈ S, s ≤ p.2 ∧ p.1 ≤ t) ∧
      (∀ p ∈ B, t < p.1) := by
  refine ⟨cov.takeWhile (fun p => p.2 < s),
    (cov.dropWhile (fun p => p.2 < s)).takeWhile (fun p => p.1 ≤ t),
    (cov.dropWhile (fun p => p.2 < s)).dropWhile (fun p => p.1 ≤ t),
    ?_, ?_, ?_, ?_, ?_⟩
  case _ =>
    conv_lhs => rw [← List.takeWhile_append_dropWhile (fun p => decide (p.2 < s)) cov]
    congr 1
    exact (List.takeWhile_append_dropWhile _ _).symm
  case _ =>
    have hmapsnd : (cov.map Prod.snd).takeWhile (fun r => decide (r < s)) =
        (cov.takeWhile (fun p => decide (p.2 < s))).map Prod.snd := by
      rw [List.takeWhile_map]
      rfl
    have hmapfst : (cov.map Prod.fst).takeWhile (fun l => decide (l ≤ t)) =
        (cov.takeWhile (fun p => decide (p.1 ≤ t))).map Prod.fst := by
      rw [List.takeWhile_map]
      rfl
    have hleft : bisect_left (cov.map Prod.snd) s =
        (cov.takeWhile (fun p => decide (p.2 < s))).length := by
      rw [bisect_left, hmapsnd, List.length_map]
    have himp : ∀ p ∈ cov, decide (p.2 < s) = true → decide (p.1 ≤ t) = true := by
      intro p hp h1
      have h1 : p.2 < s := of_decide_eq_true h1
      have h2 := hwf.1 p hp
      exact decide_eq_true (by omega)
    have hsplit := takeWhile_split (fun p : Ival => decide (p.2 < s))
      (fun p : Ival => decide (p.1 ≤ t)) cov himp
    have hright : bisect_right (cov.map Prod.fst) t =
        (cov.takeWhile (fun p => decide (p.2 < s))).length +
        ((cov.dropWhile (fun p => decide (p.2 < s))).takeWhile
          (fun p => decide (p.1 ≤ t))).length := by
      rw [bisect_right, hmapfst, List.length_map, hsplit, List.length_append]
    have htake : cov.take (bisect_left (cov.map Prod.snd) s) =
        cov.takeWhile (fun p => decide (p.2 < s)) := by
      rw [hleft]
      exact take_length_takeWhile _ cov
    have hdrop : cov.drop (bisect_left (cov.map Prod.snd) s) =
        cov.dropWhile (fun p => decide (p.2 < s)) := by
      rw [hleft]
      exact drop_length_takeWhile _ cov
    have hAq2 : ∀ p ∈ cov.takeWhile (fun p : Ival => decide (p.2 < s)),
        decide (p.1 ≤ t) = true := by
      intro p hp
      have h1 := List.mem_takeWhile_imp hp
      simp only [decide_eq_true_eq] at h1
      exact himp p ((List.takeWhile_sublist _).subset hp) (decide_eq_true h1)
    have hdropr : cov.drop (bisect_right (cov.map Prod.fst) t) =
        (cov.dropWhile (fun p => decide (p.2 < s))).dropWhile
          (fun p => decide (p.1 ≤ t)) := by
      have h1 : cov.drop (bisect_right (cov.map Prod.fst) t) =
          cov.dropWhile (fun p => decide (p.1 ≤ t)) := by
        rw [bisect_right, hmapfst, List.length_map]
        exact drop_length_takeWhile _ cov
      rw [h1]
      conv_lhs => rw [← List.takeWhile_append_dropWhile (fun p : Ival => decide (p.2 < s)) cov]
      exact dropWhile_append_of_forall _ _ _ hAq2
    have hslice : (cov.drop (bisect_left (cov.map Prod.snd) s)).take
        (bisect_right (cov.map Prod.fst) t - bisect_left (cov.map Prod.snd) s) =
        (cov.dropWhile (fun p => decide (p.2 < s))).takeWhile
          (fun p => decide (p.1 ≤ t)) := by
      rw [hdrop, hleft, hright, Nat.add_sub_cancel_left]
      exact take_length_takeWhile _ _
    show merge s t (bisect_left (cov.map Prod.snd) s) (bisect_right (cov.map Prod.fst) t) cov = _
    simp only [merge]
    rw [hslice, htake, hdropr]
  case _ =>
    intro p hp
    have h1 := List.mem_takeWhile_imp hp
    simp only [decide_eq_true_eq] at h1
    exact h1
  case _ =>
    intro p hp
    have h1 := List.mem_takeWhile_imp hp
    simp only [decide_eq_true_eq] at h1
    refine ⟨?_, h1⟩
    exact snd_ge_of_mem_dropWhile (WF.pairwise_snd hwf) p ((List.takeWhile_sublist _).subset hp)
  case _ =>
    intro p hp
    have hAq2 : ∀ p ∈ cov.takeWhile (fun p : Ival => decide (p.2 < s)),
        decide (p.1 ≤ t) = true := by
      intro p hp
      have h0 := List.mem_takeWhile_imp hp
      simp only [decide_eq_true_eq] at h0
      have h2 := hwf.1 p ((List.takeWhile_sublist _).subset hp)
      exact decide_eq_true (by omega)
    have hBeq : (cov.dropWhile (fun p : Ival => decide (p.2 < s))).dropWhile
        (fun p : Ival => decide (p.1 ≤ t)) =
        cov.dropWhile (fun p : Ival => decide (p.1 ≤ t)) := by
      conv_rhs => rw [← List.takeWhile_append_dropWhile (fun p : Ival => decide (p.2 < s)) cov]
      exact (dropWhile_append_of_forall _ _ _ hAq2).symm
    rw [hBeq] at hp
    exact fst_gt_of_mem_dropWhile (WF.pairwise_fst hwf) p hp

end LazyZip

namespace LazyZip

theorem mergeGaps_bounds (S : List Ival) :
    ∀ (i stop : Nat),
      (∀ p ∈ S, p.1 ≤ p.2) → (∀ p ∈ S, i ≤ p.2 + 1) → (∀ p ∈ S, p.1 ≤ stop) →
      List.Pairwise (fun a b : Ival => a.2 < b.1) S →
      ∀ g ∈ mergeGaps i stop S, i ≤ g.1 ∧ g.1 ≤ g.2 ∧ g.2 ≤ stop := by
  induction S with
  | nil =>
    intro i stop _ _ _ _ g hg
    by_cases h : i ≤ stop
    · rw [mergeGaps, if_pos h] at hg
      rcases List.mem_singleton.mp hg with rfl
      exact ⟨le_refl _, h, le_refl _⟩
    · rw [mergeGaps, if_neg h] at hg
      exact absurd hg (List.not_mem_nil g)
  | cons e rest ih =>
    intro i stop hwf hi hstop hpw g hg
    obtain ⟨j, k⟩ := e
    simp only [mergeGaps] at hg
    rcases List.mem_append.mp hg with hg | hg
    · by_cases h : i < j
      · rw [if_pos h] at hg
        rcases List.mem_singleton.mp hg with rfl
        have hj : j ≤ stop := hstop (j, k) (List.mem_cons_self _ _)
        exact ⟨le_refl _, by omega, by omega⟩
      · rw [if_neg h] at hg
        exact absurd hg (List.not_mem_nil g)
    · have hrec := ih (k + 1) stop
        (fun p hp => hwf p (List.mem_cons_of_mem _ hp))
        (fun p hp => by
          have h1 := (List.pairwise_cons.mp hpw).1 p hp
          have h2 := hwf p (List.mem_cons_of_mem _ hp)
          omega)
        (fun p hp => hstop p (List.mem_cons_of_mem _ hp))
        (List.pairwise_cons.mp hpw).2 g hg
      have hik : i ≤ k + 1 := hi (j, k) (List.mem_cons_self _ _)
      exact ⟨le_trans hik hrec.1, hrec.2.1, hrec.2.2⟩

theorem mergeGaps_disjoint (S : List Ival) :
    ∀ (i stop : Nat),
      (∀ p ∈ S, p.1 ≤ p.2) → (∀ p ∈ S, i ≤ p.2 + 1) → (∀ p ∈ S, p.1 ≤ stop) →
      List.Pairwise (fun a b : Ival => a.2 < b.1) S →
      ∀ g ∈ mergeGaps i stop S, ∀ p ∈ S, g.2 < p.1 ∨ p.2 < g.1 := by
  induction S with
  | nil =>
    intro i stop _ _ _ _ g _ p hp
    exact absurd hp (List.not_mem_nil p)
  | cons e rest ih =>
    intro i stop hwf hi hstop hpw g hg p hp
    obtain ⟨j, k⟩ := e
    have hd := List.pairwise_cons.mp hpw
    have hyps :
        (∀ p ∈ rest, p.1 ≤ p.2) ∧ (∀ p ∈ rest, k + 1 ≤ p.2 + 1) ∧
        (∀ p ∈ rest, p.1 ≤ stop) := by
      refine ⟨fun p hp => hwf p (List.mem_cons_of_mem _ hp), fun p hp => ?_,
        fun p hp => hstop p (List.mem_cons_of_mem _ hp)⟩
      have h1 := hd.1 p hp
      have h2 := hwf p (List.mem_cons_of_mem _ hp)
      omega
    simp only [mergeGaps] at hg
    rcases List.mem_append.mp hg with hg | hg
    · by_cases h : i < j
      · rw [if_pos h] at hg
        rcases List.mem_singleton.mp hg with rfl
        rcases List.mem_cons.mp hp with rfl | hp
        · left
          show j - 1 < j
          omega
        · left
          have hjk : j ≤ k := hwf (j, k) (List.mem_cons_self _ _)
          have h1 := hd.1 p hp
          show j - 1 < p.1
          omega
      · rw [if_neg h] at hg
        exact absurd hg (List.not_mem_nil g)
    · rcases List.mem_cons.mp hp with rfl | hp
      · right
        have hb := mergeGaps_bounds rest (k + 1) stop hyps.1 hyps.2.1 hyps.2.2 hd.2 g hg
        show k < g.1
        omega
      · exact ih (k + 1) stop hyps.1 hyps.2.1 hyps.2.2 hd.2 g hg p hp

theorem mergeGaps_pairwise (S : List Ival) :
    ∀ (i stop : Nat),
      (∀ p ∈ S, p.1 ≤ p.2) → (∀ p ∈ S, i ≤ p.2 + 1) → (∀ p ∈ S, p.1 ≤ stop) →
      List.Pairwise (fun a b : Ival => a.2 < b.1) S →
      List.Pairwise (fun g h : Ival => g.2 < h.1) (mergeGaps i stop S) := by
  induction S with
  | nil =>
    intro i stop _ _ _ _
    by_cases h : i ≤ stop
    · rw [mergeGaps, if_pos h]
      exact List.pairwise_singleton _ _
    · rw [mergeGaps, if_neg h]
      exact List.Pairwise.nil
  | cons e rest ih =>
    intro i stop hwf hi hstop hpw
    obtain ⟨j, k⟩ := e
    have hd := List.pairwise_cons.mp hpw
    have hyps :
        (∀ p ∈ rest, p.1 ≤ p.2) ∧ (∀ p ∈ rest, k + 1 ≤ p.2 + 1) ∧
        (∀ p ∈ rest, p.1 ≤ stop) := by
      refine ⟨fun p hp => hwf p (List.mem_cons_of_mem _ hp), fun p hp => ?_,
        fun p hp => hstop p (List.mem_cons_of_mem _ hp)⟩
      have h1 := hd.1 p hp
      have h2 := hwf p (List.mem_cons_of_mem _ hp)
      omega
    simp only [mergeGaps]
    rw [List.pairwise_append]
    refine ⟨?_, ih (k + 1) stop hyps.1 hyps.2.1 hyps.2.2 hd.2, ?_⟩
    · by_cases h : i < j
      · rw [if_pos h]
        exact List.pairwise_singleton _ _
      · rw [if_neg h]
        exact List.Pairwise.nil
    · intro a ha b hb
      by_cases h : i < j
      · rw [if_pos h] at ha
        rcases List.mem_singleton.mp ha with rfl
        have hb1 := (mergeGaps_bounds rest (k + 1) stop hyps.1 hyps.2.1 hyps.2.2 hd.2 b hb).1
        have hjk : j ≤ k := hwf (j, k) (List.mem_cons_self _ _)
        show j - 1 < b.1
        omega
      · rw [if_neg h] at ha
        exact absurd ha (List.not_mem_nil a)

theorem mergeGaps_cover (S : List Ival) :
    ∀ (i stop x : Nat), i ≤ x → x ≤ stop →
      covers x S ∨ covers x (mergeGaps i stop S) := by
  induction S with
  | nil =>
    intro i stop x hix hxs
    right
    rw [mergeGaps, if_pos (le_trans hix hxs)]
    exact ⟨(i, stop), List.mem_singleton.mpr rfl, hix, hxs⟩
  | cons e rest ih =>
    intro i stop x hix hxs
    obtain ⟨j, k⟩ := e
    by_cases hxj : x < j
    · right
      have hij : i < j := lt_of_le_of_lt hix hxj
      refine ⟨(i, j - 1), ?_, hix, by omega⟩
      simp only [mergeGaps]
      exact List.mem_append.mpr (Or.inl (by rw [if_pos hij]; exact List.mem_singleton.mpr rfl))
    · by_cases hxk : x ≤ k
      · left
        exact ⟨(j, k), List.mem_cons_self _ _, by omega, hxk⟩
      · rcases ih (k + 1) stop x (by omega) hxs with h | h
        · left
          rcases h with ⟨p, hp, hpx⟩
          exact ⟨p, List.mem_cons_of_mem _ hp, hpx⟩
        · right
          rcases h with ⟨p, hp, hpx⟩
          refine ⟨p, ?_, hpx⟩
          simp only [mergeGaps]
          exact List.mem_append.mpr (Or.inr hp)

theorem mergeGaps_last_bound :
    ∀ (S : List Ival) (i t : Nat) (e : Ival),
      S.getLast? = some e → (∀ p ∈ S, p.1 ≤ t) →
      ∀ g ∈ mergeGaps i e.2 S, g.2 ≤ t
  | [], i, t, e, hl, _ => by simp at hl
  | [p], i, t, e, hl, hstop => by
    intro g hg
    obtain rfl : p = e := by simpa using hl
    obtain ⟨j, k⟩ := p
    simp only [mergeGaps] at hg
    rcases List.mem_append.mp hg with hg | hg
    · by_cases h : i < j
      · rw [if_pos h] at hg
        rcases List.mem_singleton.mp hg with rfl
        have hjt : j ≤ t := hstop (j, k) (List.mem_cons_self _ _)
        show j - 1 ≤ t
        omega
      · rw [if_neg h] at hg
        exact absurd hg (List.not_mem_nil g)
    · rw [if_neg (by omega : ¬ k + 1 ≤ k)] at hg
      exact absurd hg (List.not_mem_nil g)
  | p :: q :: rest, i, t, e, hl, hstop => by
    intro g hg
    obtain ⟨j, k⟩ := p
    simp only [mergeGaps] at hg
    rcases List.mem_append.mp hg with hg | hg
    · by_cases h : i < j
      · rw [if_pos h] at hg
        rcases List.mem_singleton.mp hg with rfl
        have hjt : j ≤ t := hstop (j, k) (List.mem_cons_self _ _)
        show j - 1 ≤ t
        omega
      · rw [if_neg h] at hg
        exact absurd hg (List.not_mem_nil g)
    · exact mergeGaps_last_bound (q :: rest) (k + 1) t e
        (by rw [← List.getLast?_cons_cons (a := (j, k))]; exact hl)
        (fun p hp => hstop p (List.mem_cons_of_mem _ hp)) g hg

theorem mergeStart_le (s : Nat) (S : List Ival) : mergeStart s S ≤ s := by
  cases h : S.head? with
  | none =>
    rw [mergeStart, h]
  | some e =>
    rw [mergeStart, h]
    exact min_le_left _ _

theorem le_mergeStop (t : Nat) (S : List Ival) : t ≤ mergeStop t S := by
  cases h : S.getLast? with
  | none =>
    rw [mergeStop, h]
  | some e =>
    rw [mergeStop, h]
    exact le_max_left _ _

end LazyZip

namespace LazyZip

/-- Every gap returned by a download request [s, t] on a well formed coverage
list is a nonempty interval inside [s, t]. -/
theorem download_gaps_bounds (s t : Nat) (cov : List Ival) (hwf : WF cov) (hst : s ≤ t) :
    ∀ g ∈ (download s t cov).1, s ≤ g.1 ∧ g.1 ≤ g.2 ∧ g.2 ≤ t := by
  obtain ⟨A, S, B, hcov, heq, hA, hS, hB⟩ := download_decomp s t cov hwf hst
  have hSsub : S.Sublist cov := by
    rw [hcov]
    exact (List.sublist_append_left S B).trans (List.sublist_append_right A (S ++ B))
  have hSwf : ∀ p ∈ S, p.1 ≤ p.2 := fun p hp => hwf.1 p (hSsub.subset hp)
  have hSpw : List.Pairwise (fun a b : Ival => a.2 < b.1) S :=
    List.Pairwise.sublist hSsub hwf.2
  have hi0 : ∀ p ∈ S, mergeStart s S ≤ p.2 + 1 := by
    intro p hp
    have h1 := mergeStart_le s S
    have h2 := (hS p hp).1
    omega
  have ht0 : ∀ p ∈ S, p.1 ≤ mergeStop t S := by
    intro p hp
    have h1 := le_mergeStop t S
    have h2 := (hS p hp).2
    omega
  intro g hg
  rw [heq] at hg
  have hb := mergeGaps_bounds S (mergeStart s S) (mergeStop t S) hSwf hi0 ht0 hSpw g hg
  have hupper : g.2 ≤ t := by
    cases hlast : S.getLast? with
    | none =>
      have hSnil : S = [] := List.getLast?_eq_none_iff.mp hlast
      subst hSnil
      exact hb.2.2
    | some e =>
      by_cases het : e.2 ≤ t
      · have hm : mergeStop t S = t := by
          rw [mergeStop, hlast]
          exact max_eq_left het
        have h1 := hb.2.2
        rw [hm] at h1
        exact h1
      · have hm : mergeStop t S = e.2 := by
          rw [mergeStop, hlast]
          exact max_eq_right (by omega)
        rw [hm] at hg
        exact mergeGaps_last_bound S (mergeStart s S) t e hlast
          (fun p hp => (hS p hp).2) g hg
  refine ⟨?_, hb.2.1, hupper⟩
  cases S with
  | nil => exact hb.1
  | cons e S' =>
    by_cases hes : e.1 ≤ s
    · obtain ⟨j, k⟩ := e
      have hm : mergeStart s ((j, k) :: S') = j := by
        rw [mergeStart]
        exact min_eq_right hes
      rw [hm] at hg
      simp only [mergeGaps, if_neg (lt_irrefl j), List.nil_append] at hg
      have hd := List.pairwise_cons.mp hSpw
      have hb2 := mergeGaps_bounds S' (k + 1) (mergeStop t ((j, k) :: S'))
        (fun p hp => hSwf p (List.mem_cons_of_mem _ hp))
        (fun p hp => by
          have h1 := hd.1 p hp
          have h2 := hSwf p (List.mem_cons_of_mem _ hp)
          omega)
        (fun p hp => ht0 p (List.mem_cons_of_mem _ hp))
        hd.2 g hg
      have hsk : s ≤ k := (hS (j, k) (List.mem_cons_self _ _)).1
      omega
    · have hm : mergeStart s (e :: S') = s := by
        rw [mergeStart]
        exact min_eq_left (by omega)
      have h1 := hb.1
      rw [hm] at h1
      exact h1

/-- C2: on a well formed coverage list, a download request [s, t] produces
gaps that are ordered and pairwise disjoint, each a nonempty subinterval of
[s, t]; every gap is disjoint from every previously committed interval (no
byte already present is ever re-requested); and every byte of [s, t] is
either already covered or inside some returned gap, so the gaps plus the
previous coverage cover the whole request. -/
theorem C2_plan_fetch_gaps (s t : Nat) (cov : List Ival) (hwf : WF cov) (hst : s ≤ t) :
    List.Pairwise (fun g h : Ival => g.2 < h.1) (download s t cov).1 ∧
    (∀ g ∈ (download s t cov).1, s ≤ g.1 ∧ g.1 ≤ g.2 ∧ g.2 ≤ t) ∧
    (∀ g ∈ (download s t cov).1, ∀ p ∈ cov, g.2 < p.1 ∨ p.2 < g.1) ∧
    (∀ x, s ≤ x → x ≤ t → covers x cov ∨ covers x (download s t cov).1) := by
  obtain ⟨A, S, B, hcov, heq, hA, hS, hB⟩ := download_decomp s t cov hwf hst
  have hSsub : S.Sublist cov := by
    rw [hcov]
    exact (List.sublist_append_left S B).trans (List.sublist_append_right A (S ++ B))
  have hSwf : ∀ p ∈ S, p.1 ≤ p.2 := fun p hp => hwf.1 p (hSsub.subset hp)
  have hSpw : List.Pairwise (fun a b : Ival => a.2 < b.1) S :=
    List.Pairwise.sublist hSsub hwf.2
  have hi0 : ∀ p ∈ S, mergeStart s S ≤ p.2 + 1 := by
    intro p hp
    have h1 := mergeStart_le s S
    have h2 := (hS p hp).1
    omega
  have ht0 : ∀ p ∈ S, p.1 ≤ mergeStop t S := by
    intro p hp
    have h1 := le_mergeStop t S
    have h2 := (hS p hp).2
    omega
  have hbounds := download_gaps_bounds s t cov hwf hst
  refine ⟨?_, hbounds, ?_, ?_⟩
  · have hp := mergeGaps_pairwise S (mergeStart s S) (mergeStop t S) hSwf hi0 ht0 hSpw
    rw [heq]
    exact hp
  · intro g hg p hp
    have hp' : p ∈ A ++ (S ++ B) := hcov ▸ hp
    have hb := hbounds g hg
    rcases List.mem_append.mp hp' with hpA | hp2
    · right
      have h1 := hA p hpA
      omega
    rcases List.mem_append.mp hp2 with hpS | hpB
    · have hg' : g ∈ mergeGaps (mergeStart s S) (mergeStop t S) S := by
        rw [heq] at hg
        exact hg
      exact mergeGaps_disjoint S (mergeStart s S) (mergeStop t S) hSwf hi0 ht0 hSpw
        g hg' p hpS
    · left
      have h1 := hB p hpB
      omega
  · intro x hsx hxt
    have hi0s := mergeStart_le s S
    have ht0t := le_mergeStop t S
    rcases mergeGaps_cover S (mergeStart s S) (mergeStop t S) x (by omega) (by omega)
      with h | h
    · left
      rcases h with ⟨p, hp, hpx⟩
      refine ⟨p, ?_, hpx⟩
      rw [hcov]
      exact List.mem_append.mpr (Or.inr (List.mem_append.mpr (Or.inl hp)))
    · right
      rw [heq]
      exact h

/-- Witness for the C2 theorem: coverage [(0, 9), (20, 29)] and request
[5, 25], where the single gap is [10, 19]. -/
theorem C2_plan_fetch_gaps_witness :
    List.Pairwise (fun g h : Ival => g.2 < h.1)
      (download 5 25 ([(0, 9), (20, 29)] : List Ival)).1 ∧
    (∀ g ∈ (download 5 25 ([(0, 9), (20, 29)] : List Ival)).1,
      5 ≤ g.1 ∧ g.1 ≤ g.2 ∧ g.2 ≤ 25) ∧
    (∀ g ∈ (download 5 25 ([(0, 9), (20, 29)] : List Ival)).1,
      ∀ p ∈ ([(0, 9), (20, 29)] : List Ival), g.2 < p.1 ∨ p.2 < g.1) ∧
    (∀ x, 5 ≤ x → x ≤ 25 →
      covers x ([(0, 9), (20, 29)] : List Ival) ∨
      covers x (download 5 25 ([(0, 9), (20, 29)] : List Ival)).1) :=
  C2_plan_fetch_gaps 5 25 [(0, 9), (20, 29)] (by refine ⟨?_, ?_⟩ <;> decide) (by decide)

/-- C3 amended: a download request [s, t] on a well formed coverage list
leaves the coverage well formed - entries are in ascending order and no two
overlap.  The stronger claimed property, that no two entries touch and that
an interval committed adjacent to an existing entry is merged with it, does
not hold (see the counterexample). -/
theorem C3_commit_invariant_amended (s t : Nat) (cov : List Ival)
    (hwf : WF cov) (hst : s ≤ t) : WF (download s t cov).2 := by
  obtain ⟨A, S, B, hcov, heq, hA, hS, hB⟩ := download_decomp s t cov hwf hst
  have hpw := hwf.2
  rw [hcov, List.pairwise_append] at hpw
  obtain ⟨hpwA, hpwSB, hcross⟩ := hpw
  rw [List.pairwise_append] at hpwSB
  obtain ⟨hpwS, hpwB, hcrossSB⟩ := hpwSB
  rw [heq]
  constructor
  · intro p hp
    rcases List.mem_append.mp hp with hpA | hp2
    · exact hwf.1 p (by rw [hcov]; exact List.mem_append.mpr (Or.inl hpA))
    rcases List.mem_cons.mp hp2 with rfl | hpB
    · have h1 := mergeStart_le s S
      have h2 := le_mergeStop t S
      show mergeStart s S ≤ mergeStop t S
      omega
    · exact hwf.1 p
        (by rw [hcov]; exact List.mem_append.mpr (Or.inr (List.mem_append.mpr (Or.inr hpB))))
  · rw [List.pairwise_append]
    refine ⟨hpwA, ?_, ?_⟩
    · rw [List.pairwise_cons]
      refine ⟨?_, hpwB⟩
      intro b hb
      show mergeStop t S < b.1
      cases hlast : S.getLast? with
      | none =>
        have hSnil : S = [] := List.getLast?_eq_none_iff.mp hlast
        subst hSnil
        exact hB b hb
      | some e =>
        have he : e ∈ S := by
          rcases List.mem_getLast?_eq_getLast (l := S) (x := e) hlast with ⟨hne, rfl⟩
          exact List.getLast_mem hne
        have h1 : e.2 < b.1 := hcrossSB e he b hb
        have h2 : t < b.1 := hB b hb
        rw [mergeStop, hlast]
        exact max_lt h2 h1
    · intro a ha b hb
      rcases List.mem_cons.mp hb with rfl | hbB
      · show a.2 < mergeStart s S
        cases S with
        | nil => exact hA a ha
        | cons e S' =>
          have h1 : a.2 < e.1 :=
            hcross a ha e (List.mem_append.mpr (Or.inl (List.mem_cons_self _ _)))
          have h2 : a.2 < s := hA a ha
          exact lt_min h2 h1
      · exact hcross a ha b (List.mem_append.mpr (Or.inr hbB))

/-- Witness for the amended C3 theorem at coverage [(0, 9), (20, 29)] and
request [5, 25]. -/
theorem C3_commit_invariant_amended_witness :
    WF (download 5 25 ([(0, 9), (20, 29)] : List Ival)).2 :=
  C3_commit_invariant_amended 5 25 [(0, 9), (20, 29)]
    (by refine ⟨?_, ?_⟩ <;> decide) (by decide)

/-- C3 counterexample: starting from the empty tracker, committing [0, 9] and
then the adjacent interval [10, 19] leaves two touching entries (0, 9) and
(10, 19): the claimed invariant entry[i].end < entry[i+1].start - 1 fails and
the adjacent commit is not merged into a single entry. -/
theorem C3_touching_counterexample :
    (download 10 19 (download 0 9 ([] : List Ival)).2).2 = [(0, 9), (10, 19)] ∧
    ¬ SpecSeparated ((download 10 19 (download 0 9 ([] : List Ival)).2).2) := by
  refine ⟨by decide, by decide⟩

end LazyZip
